import Mathlib

/-!
Verification of the `LinkedBST` binary search tree in
`Завдання 1/linkedbst.py` against its natural-language specification.

Shallow embedding conventions:
* Stored items are modelled as `Int` (the repository stores integer keys;
  comparisons `<`, `==`, `>` and the `range(low, high + 1)` membership test
  used by `range_find` are integer operations).
* A `BSTNode` reference that may be `None` is modelled by the inductive type
  `BTree`: `BTree.nil` is the absent reference, `BTree.node data left right`
  is a node.  Modelled from the spec: the class `BSTNode` itself lives in
  `bstnode.py`, which is not part of the sources; per the spec (section 3) a
  Node carries `data`, `left` and `right` and nothing else.
* The collection object is the structure `LinkedBST` with fields `root` and
  `size`.  Modelled from the spec: the base class `AbstractCollection`
  (file `abstractcollection.py`, not in the sources) supplies the `_size`
  counter, `__len__` returning `_size`, and `isEmpty()` which is
  `len(self) == 0`; the spec (sections 1 and 3) describes it as "a generic
  base defining shared collection bookkeeping (size counter ...)" with the
  tree "empty at construction".  `size` is an `Int` because Python's counter
  is an unbounded signed integer.
* Mutating methods become state-passing functions; `remove`, which can raise
  `KeyError`, returns `Except String ...` where `.error` models the raised
  exception (and hence an unchanged tree object).
* `rebalance` can crash on the empty tree (`AttributeError` on
  `position.left` when `position` is `None` inside `_subtree_inorder`);
  it is therefore modelled as returning `Option BTree`, `none` being the
  crash.
-/

/-- Modelled from the spec: a `BSTNode` (from the absent file `bstnode.py`)
has fields `data`, `left`, `right`; `BTree.nil` stands for the Python `None`
reference. -/
inductive BTree where
  | nil : BTree
  | node (data : Int) (left : BTree) (right : BTree) : BTree
deriving DecidableEq

/-- Embeds `LinkedBST.inorder` (linkedbst.py lines 48-59): recursive
left - node - right collection of the stored values. -/
def inorderVals : BTree → List Int
  | .nil => []
  | .node d l r => inorderVals l ++ [d] ++ inorderVals r

/-- Embeds `LinkedBST.find` (lines 65-79): comparison-guided descent.
`item == node.data` returns the stored datum, `item < node.data` goes left,
otherwise right; an absent child gives `None`. -/
def find : BTree → Int → Option Int
  | .nil, _ => none
  | .node d l r, item =>
    if item = d then some d
    else if item < d then find l item
    else find r item

/-- Embeds `LinkedBST.__contains__` (lines 61-63): `find(item) is not None`. -/
def containsB (t : BTree) (item : Int) : Bool :=
  (find t item).isSome

/-- Embeds the `recurse` helper of `LinkedBST.add` (lines 91-104) together
with the attachment of a fresh node at an absent child: `item < node.data`
descends left, otherwise (greater **or equal**) right; reaching an absent
child attaches `BSTNode(item)` there.  The `.nil` case is the attachment
point (Python never calls `recurse` on `None`). -/
def addGo : BTree → Int → BTree
  | .nil, item => .node item .nil .nil
  | .node d l r, item =>
    if item < d then .node d (addGo l item) r
    else .node d l (addGo r item)

/-- Embeds the `lift` helper of `LinkedBST.remove` (lines 122-139) seen from
the left subtree it walks: walking right-most from the given (non-`None`)
subtree root, it returns the maximum datum together with the subtree after
that maximum node has been replaced by its left child.  The `.nil` case is
unreachable (`lift` is only invoked when a left child exists). -/
def removeMax : BTree → Int × BTree
  | .nil => (0, .nil)
  | .node d l .nil => (d, l)
  | .node d l (.node dr lr rr) =>
    let p := removeMax (.node dr lr rr)
    (p.1, .node d l p.2)

/-- Embeds the search-and-splice part of `LinkedBST.remove` (lines 146-191)
as a functional rebuild of the path: the iterative descent with the
`pre_root` sentinel, `parent` and `direction` bookkeeping, followed by
`self._root = pre_root.left`, is exactly a recursive reconstruction along
the search path.  The comparison `current_node.data > item` is written
`item < d`.  Returns `(item_removed, new root)`; `(none, _)` models the
search loop ending with `item_removed is None`.  Case analysis on the found
node: both children present calls `lift`; no left child splices the right
child into the parent slot; otherwise the left child is spliced. -/
def removeGo : BTree → Int → Option Int × BTree
  | .nil, _ => (none, .nil)
  | .node d l r, item =>
    if d = item then
      match l, r with
      | .node dl ll rl, .node dr lr rr =>
        let p := removeMax (.node dl ll rl)
        (some d, .node p.1 p.2 (.node dr lr rr))
      | .nil, _ => (some d, r)
      | _, .nil => (some d, l)
    else if item < d then
      let p := removeGo l item
      (p.1, .node d p.2 r)
    else
      let p := removeGo r item
      (p.1, .node d l p.2)

/-- Embeds `LinkedBST.replace` (lines 203-217): iterative descent comparing
the stored data to `item` (`probe.data > item` is written `item < d`); on a
match the node's value is overwritten in place and the old value returned;
otherwise `None`. -/
def replaceGo : BTree → Int → Int → Option Int × BTree
  | .nil, _, _ => (none, .nil)
  | .node d l r, item, newItem =>
    if d = item then (some d, .node newItem l r)
    else if item < d then
      let p := replaceGo l item newItem
      (p.1, .node d p.2 r)
    else
      let p := replaceGo r item newItem
      (p.1, .node d l p.2)

/-- Embeds `LinkedBST.num_children` (lines 243-256).  For `None` the Python
code returns `False`; since Python's `False == 0` holds, and the only use of
this value is the comparison `== 0` in `is_leaf`, the `False` result is
modelled as `0`. -/
def num_children : BTree → Int
  | .nil => 0
  | .node _ l r =>
    2 - (if l = BTree.nil then 1 else 0) - (if r = BTree.nil then 1 else 0)

/-- Embeds `LinkedBST.is_leaf` (lines 258-262): `num_children(position) == 0`. -/
def is_leaf (t : BTree) : Bool :=
  num_children t = 0

/-- Embeds the `height1` helper of `LinkedBST.height` (lines 276-285):
`0` for a leaf (and for `None`, where `is_leaf(None)` holds because
`num_children(None)` is `False == 0`), otherwise one plus the maximum height
over the existing children.  Taking `max` over both subtrees with
`heightT .nil = 0` agrees with Python's maximum over the non-`None` children
only, because heights are non-negative and a non-leaf has at least one
child. -/
def heightT : BTree → Nat
  | .nil => 0
  | .node _ l r =>
    if l = BTree.nil ∧ r = BTree.nil then 0
    else 1 + max (heightT l) (heightT r)

/-- Embeds `LinkedBST.range_find` (lines 300-312): a full inorder scan
keeping each `node_item` with `node_item in range(low, high + 1)`, which for
integers is `low <= node_item < high + 1`. -/
def range_find (t : BTree) (low high : Int) : List Int :=
  (inorderVals t).filter (fun x => decide (low ≤ x) && decide (x < high + 1))

/-- Embeds the sequence of `items.pop(floor(lenght/2))` calls performed by
the `while lenght > 0` loop of `LinkedBST.rebalance` (lines 340-354), in
order.  Inside the loop the counter `lenght` always equals `len(items)`
(both start at `len(items)` after the root pop and are decremented
together), each pop removes the element at index `floor(lenght/2)` and the
loop stops when `lenght` reaches `0`. -/
def popChildren : List Int → Nat → List Int
  | _, 0 => []
  | items, k + 1 =>
    items.getD ((k + 1) / 2) 0 :: popChildren (items.eraseIdx ((k + 1) / 2)) k

/-- Places a list of values into a complete binary tree by heap indexing:
the node at index `i` has children at indices `2*i+1` and `2*i+2`.  This is
the link structure produced by the node-creation loop of
`LinkedBST.rebalance` (lines 338-354): the loop maintains a queue of nodes
awaiting children (`nodes`/`new_nodes`; after the first pass `nodes`
aliases `new_nodes`, so the `for` walks the growing queue in creation
order), every queue entry receives its `left` then its `right` child, the
two fresh children are appended to the queue in that order, and the loop
only stops via the `lenght == 0` breaks.  Hence node number `k` in creation
order receives children number `2*k+1` and `2*k+2`, i.e. the values land at
heap indices.  `fuel` makes the recursion structural; it is consumed once
per level, and every caller passes `vs.length`, which exceeds the depth
`log2 (vs.length)` of the deepest index, so the fuel never runs out. -/
def heapTreeAux : Nat → List Int → Nat → BTree
  | 0, _, _ => .nil
  | fuel + 1, vs, i =>
    if h : i < vs.length then
      .node (vs.get ⟨i, h⟩) (heapTreeAux fuel vs (2 * i + 1))
        (heapTreeAux fuel vs (2 * i + 2))
    else .nil

/-- Builds the complete tree of a value list, root at heap index `0`. -/
def heapTree (vs : List Int) : BTree :=
  heapTreeAux vs.length vs 0

/-- Embeds `LinkedBST.rebalance` (lines 327-354) at the level of the node
structure.  On the empty tree `_subtree_inorder` is entered with
`position = self.root = None` and `position.left` raises `AttributeError`;
this crash (which happens before `self.clear()`, so the tree is not yet
modified) is modelled as `none`.  Otherwise: the node data are collected in
inorder and sorted (`sorted` is modelled by the stable ascending
`List.insertionSort`), `lenght = len(items) - 1`, the root value is
`items.pop(floor(lenght/2))`, and the remaining values are popped by the
child-creation loop (`popChildren`) and placed in level order
(`heapTree`). -/
def rebalance : BTree → Option BTree
  | .nil => none
  | .node d l r =>
    let items := List.insertionSort (· ≤ ·) (inorderVals (.node d l r))
    let lenght := items.length - 1
    some (heapTree
      (items.getD (lenght / 2) 0 :: popChildren (items.eraseIdx (lenght / 2)) lenght))

/-- Modelled from the spec: the collection state, `root` plus the `_size`
counter maintained by the absent base class `AbstractCollection`
(size counter bookkeeping, `isEmpty()` being `len(self) == 0`). -/
structure LinkedBST where
  root : BTree
  size : Int
deriving DecidableEq

/-- Embeds `LinkedBST.add` (lines 87-112) on the collection state: when
`self.isEmpty()` (i.e. `_size == 0`) the new node becomes the root,
otherwise `recurse(self._root)` places it; `_size` is incremented
unconditionally. -/
def addS (s : LinkedBST) (item : Int) : LinkedBST :=
  if s.size = 0 then { root := .node item .nil .nil, size := s.size + 1 }
  else { root := addGo s.root item, size := s.size + 1 }

/-- Embeds `LinkedBST.remove` (lines 114-201) on the collection state, in
the order of the source: the containment pre-check raising
`KeyError("Item not in tree.")`, the early `return None` when
`self.isEmpty()` (`_size == 0`), the search-and-splice, the
`item_removed is None` early return, and finally the `_size` decrement with
`self._root` reset to `None` when the collection reports empty. -/
def removeS (s : LinkedBST) (item : Int) : Except String (Option Int × LinkedBST) :=
  if containsB s.root item = false then
    .error "Item not in tree."
  else if s.size = 0 then
    .ok (none, s)
  else
    match removeGo s.root item with
    | (none, _) => .ok (none, s)
    | (some v, r) =>
      .ok (some v,
        { root := if s.size - 1 = 0 then .nil else r, size := s.size - 1 })

/-- Embeds `LinkedBST.rebalance` on the collection state: a crash leaves the
state unchanged (it happens before `self.clear()`); otherwise `clear()`
zeroes `_size` and empties the tree, the reconstruction assigns the new
root through the `root` setter, and **no statement ever restores `_size`**,
so the resulting size counter is `0`. -/
def rebalanceS (s : LinkedBST) : LinkedBST :=
  match rebalance s.root with
  | none => s
  | some t => { root := t, size := 0 }

/-- Embeds `LinkedBST.height` (lines 270-290) called without argument:
`position` defaults to `self.root` and `height1` is applied to it (for an
absent root `height1(None)` returns `0` via `is_leaf(None)`). -/
def heightS (s : LinkedBST) : Nat :=
  heightT s.root

/-- An operation of the mutation API considered by the reachability claims. -/
inductive Op where
  | add (x : Int)
  | remove (x : Int)
  | rebalance
deriving DecidableEq

/-- One mutating call on the collection state.  A `KeyError` from `remove`
propagates to the caller and leaves the tree unmutated (the raise happens
before any mutation), and the `AttributeError` of `rebalance` on an empty
tree likewise leaves the state unchanged. -/
def step (s : LinkedBST) : Op → LinkedBST
  | .add x => addS s x
  | .remove x =>
    match removeS s x with
    | .error _ => s
    | .ok (_, s2) => s2
  | .rebalance => rebalanceS s

/-- States reachable from the freshly constructed empty tree
(`__init__` with no source collection: `root = None`, `_size = 0`) by a
sequence of mutating calls. -/
def run (ops : List Op) : LinkedBST :=
  ops.foldl step { root := .nil, size := 0 }

/-- Every stored value of the tree satisfies `p` (helper for stating the
BST order invariant). -/
def allValsB (p : Int → Bool) : BTree → Bool
  | .nil => true
  | .node d l r => p d && allValsB p l && allValsB p r

/-- The BST order invariant exactly as the specification states it: at every
node, each value in the left subtree is strictly less than the node's value
and each value in the right subtree is greater than or equal to it. -/
def isBSTB : BTree → Bool
  | .nil => true
  | .node d l r =>
    allValsB (fun x => decide (x < d)) l && allValsB (fun x => decide (d ≤ x)) r
      && isBSTB l && isBSTB r

/-! ## Basic lemmas about the embedding -/

theorem mem_inorder_node {x d : Int} {l r : BTree} :
    x ∈ inorderVals (.node d l r) ↔ x ∈ inorderVals l ∨ x = d ∨ x ∈ inorderVals r := by
  simp [inorderVals]

theorem inorderVals_eq_nil_iff (t : BTree) : inorderVals t = [] ↔ t = .nil := by
  cases t <;> simp [inorderVals]

theorem allValsB_eq_true {p : Int → Bool} (t : BTree) :
    allValsB p t = true ↔ ∀ x ∈ inorderVals t, p x = true := by
  induction t with
  | nil => simp [allValsB, inorderVals]
  | node d l r ihl ihr =>
    simp only [allValsB, Bool.and_eq_true, ihl, ihr]
    constructor
    · rintro ⟨⟨hd, hl⟩, hr⟩ x hx
      rcases mem_inorder_node.1 hx with h | rfl | h
      · exact hl x h
      · exact hd
      · exact hr x h
    · intro h
      exact ⟨⟨h d (mem_inorder_node.2 (Or.inr (Or.inl rfl))),
          fun x hx => h x (mem_inorder_node.2 (Or.inl hx))⟩,
        fun x hx => h x (mem_inorder_node.2 (Or.inr (Or.inr hx)))⟩

theorem isBSTB_node {d : Int} {l r : BTree} :
    isBSTB (.node d l r) = true ↔
      (∀ x ∈ inorderVals l, x < d) ∧ (∀ x ∈ inorderVals r, d ≤ x)
        ∧ isBSTB l = true ∧ isBSTB r = true := by
  simp [isBSTB, Bool.and_eq_true, allValsB_eq_true, and_assoc]

theorem find_eq_none_or (t : BTree) (x : Int) : find t x = none ∨ find t x = some x := by
  induction t with
  | nil => exact Or.inl rfl
  | node d l r ihl ihr =>
    by_cases h1 : x = d
    · subst h1; simp [find]
    · by_cases h2 : x < d
      · simpa [find, h1, h2] using ihl
      · simpa [find, h1, h2] using ihr

theorem containsB_iff_mem (t : BTree) (x : Int) (hb : isBSTB t = true) :
    containsB t x = true ↔ x ∈ inorderVals t := by
  revert hb
  induction t with
  | nil => intro _; simp [containsB, find, inorderVals]
  | node d l r ihl ihr =>
    intro hb
    obtain ⟨hl, hr, hbl, hbr⟩ := isBSTB_node.1 hb
    constructor
    · intro hc
      by_cases h1 : x = d
      · exact mem_inorder_node.2 (Or.inr (Or.inl h1))
      · by_cases h2 : x < d
        · have hc2 : containsB l x = true := by simpa [containsB, find, h1, h2] using hc
          exact mem_inorder_node.2 (Or.inl ((ihl hbl).1 hc2))
        · have hc2 : containsB r x = true := by simpa [containsB, find, h1, h2] using hc
          exact mem_inorder_node.2 (Or.inr (Or.inr ((ihr hbr).1 hc2)))
    · intro hm
      rcases mem_inorder_node.1 hm with hml | rfl | hmr
      · have hxd : x < d := hl x hml
        have hne : x ≠ d := ne_of_lt hxd
        simpa [containsB, find, hne, hxd] using (ihl hbl).2 hml
      · simp [containsB, find]
      · by_cases h1 : x = d
        · subst h1; simp [containsB, find]
        · have h2 : ¬ x < d := not_lt.2 (hr x hmr)
          simpa [containsB, find, h1, h2] using (ihr hbr).2 hmr

theorem sorted_inorder_of_isBSTB (t : BTree) (hb : isBSTB t = true) :
    (inorderVals t).Sorted (· ≤ ·) := by
  revert hb
  induction t with
  | nil => intro _; simp [inorderVals]
  | node d l r ihl ihr =>
    intro hb
    obtain ⟨hl, hr, hbl, hbr⟩ := isBSTB_node.1 hb
    have sl := ihl hbl
    have sr := ihr hbr
    simp only [inorderVals, List.append_assoc, List.singleton_append]
    show List.Pairwise (· ≤ ·) _
    rw [List.pairwise_append]
    refine ⟨sl, ?_, ?_⟩
    · rw [List.pairwise_cons]
      exact ⟨fun b hb2 => hr b hb2, sr⟩
    · intro a ha b hb2
      rcases List.mem_cons.1 hb2 with rfl | hb3
      · exact (hl a ha).le
      · exact ((hl a ha).le.trans (hr b hb3))

/-! ## Lemmas about `remove` and `add` -/

theorem removeGo_fst_eq_find (t : BTree) (x : Int) : (removeGo t x).1 = find t x := by
  induction t with
  | nil => simp [removeGo, find]
  | node d l r ihl ihr =>
    by_cases h1 : d = x
    · subst h1
      cases l <;> cases r <;> simp [removeGo, find]
    · have h1x : ¬ x = d := fun h => h1 h.symm
      by_cases h2 : x < d
      · simp [removeGo, find, h1, h1x, h2, ihl]
      · simp [removeGo, find, h1, h1x, h2, ihr]

theorem containsB_addGo_self (t : BTree) (x : Int) : containsB (addGo t x) x = true := by
  induction t with
  | nil => simp [addGo, containsB, find]
  | node d l r ihl ihr =>
    by_cases h2 : x < d
    · have h1 : ¬ x = d := ne_of_lt h2
      simpa [addGo, containsB, find, h1, h2] using ihl
    · by_cases h1 : x = d
      · subst h1
        simp [addGo, containsB, find, h2]
      · simpa [addGo, containsB, find, h1, h2] using ihr

theorem removeGo_addGo (t : BTree) (x : Int) (hf : find t x = none) :
    removeGo (addGo t x) x = (some x, t) := by
  induction t with
  | nil => simp [addGo, removeGo]
  | node d l r ihl ihr =>
    have h1 : ¬ x = d := by
      intro h; subst h; simp [find] at hf
    have h1d : ¬ d = x := fun h => h1 h.symm
    by_cases h2 : x < d
    · have hfl : find l x = none := by simpa [find, h1, h2] using hf
      simp [addGo, h2, removeGo, h1d, ihl hfl]
    · have hfr : find r x = none := by simpa [find, h1, h2] using hf
      simp [addGo, h2, removeGo, h1d, ihr hfr]

theorem removeGo_addGo_addGo (t : BTree) (x : Int) (hf : find t x = none) :
    removeGo (addGo (addGo t x) x) x = (some x, addGo t x) := by
  induction t with
  | nil => simp [addGo, removeGo, lt_irrefl]
  | node d l r ihl ihr =>
    have h1 : ¬ x = d := by
      intro h; subst h; simp [find] at hf
    have h1d : ¬ d = x := fun h => h1 h.symm
    by_cases h2 : x < d
    · have hfl : find l x = none := by simpa [find, h1, h2] using hf
      simp [addGo, h2, removeGo, h1d, ihl hfl]
    · have hfr : find r x = none := by simpa [find, h1, h2] using hf
      simp [addGo, h2, removeGo, h1d, ihr hfr]

theorem addS_eq_addGo (s : LinkedBST) (x : Int)
    (hsz : s.size = ((inorderVals s.root).length : Int)) :
    addS s x = { root := addGo s.root x, size := s.size + 1 } := by
  by_cases h : s.size = 0
  · have hlen : (inorderVals s.root).length = 0 := by
      rw [h] at hsz; exact_mod_cast hsz.symm
    have hroot : s.root = .nil :=
      (inorderVals_eq_nil_iff s.root).1 (List.length_eq_zero.1 hlen)
    simp [addS, h, hroot, addGo]
  · simp [addS, h]

/-! ## Lemmas about the rebalance reconstruction -/

theorem popChildren_length (items : List Int) (k : Nat) :
    (popChildren items k).length = k := by
  induction k generalizing items with
  | zero => rfl
  | succ n ih => simp [popChildren, ih]

theorem heapTreeAux_nil_of_le (fuel : Nat) (vs : List Int) (i : Nat)
    (h : vs.length ≤ i) : heapTreeAux fuel vs i = .nil := by
  cases fuel with
  | zero => rfl
  | succ n =>
    rw [heapTreeAux, dif_neg]
    omega

theorem heightT_node_le (d : Int) (l r : BTree) :
    heightT (.node d l r) ≤ 1 + max (heightT l) (heightT r) := by
  rw [heightT]
  split
  · exact Nat.zero_le _
  · exact le_refl _

theorem heightT_heapTreeAux_le (d : Nat) :
    ∀ (fuel : Nat) (vs : List Int) (i : Nat),
      vs.length < (i + 1) * 2 ^ (d + 1) → heightT (heapTreeAux fuel vs i) ≤ d := by
  induction d with
  | zero =>
    intro fuel vs i hlt
    norm_num at hlt
    cases fuel with
    | zero => simp [heapTreeAux, heightT]
    | succ n =>
      rw [heapTreeAux]
      split
      · have e1 : heapTreeAux n vs (2 * i + 1) = .nil :=
          heapTreeAux_nil_of_le _ _ _ (by omega)
        have e2 : heapTreeAux n vs (2 * i + 2) = .nil :=
          heapTreeAux_nil_of_le _ _ _ (by omega)
        rw [e1, e2, heightT]
        simp
      · simp [heightT]
  | succ d ih =>
    intro fuel vs i hlt
    cases fuel with
    | zero => simp [heapTreeAux, heightT]
    | succ n =>
      rw [heapTreeAux]
      split
      · refine le_trans (heightT_node_le _ _ _) ?_
        have hL : heightT (heapTreeAux n vs (2 * i + 1)) ≤ d := by
          apply ih
          have he : (2 * i + 1 + 1) * 2 ^ (d + 1) = (i + 1) * 2 ^ (d + 1 + 1) := by ring
          rw [he]
          exact hlt
        have hR : heightT (heapTreeAux n vs (2 * i + 2)) ≤ d := by
          apply ih
          have he : (i + 1) * 2 ^ (d + 1 + 1) = (2 * i + 2) * 2 ^ (d + 1) := by ring
          refine lt_of_lt_of_le hlt ?_
          rw [he]
          exact Nat.mul_le_mul_right _ (by omega)
        have := max_le hL hR
        omega
      · simp [heightT]

/-! ## Claim theorems -/

theorem heightT_heapTree_le_log (vs : List Int) :
    heightT (heapTree vs) ≤ Nat.log 2 vs.length := by
  rw [heapTree]
  apply heightT_heapTreeAux_le
  simpa using Nat.lt_pow_succ_log_self (by norm_num) vs.length

theorem log_le_clog_sub_one (n : Nat) (hn : n ≠ 0) :
    Nat.log 2 n ≤ Nat.clog 2 (n + 1) - 1 := by
  have h1 : 2 ^ Nat.log 2 n ≤ n := Nat.pow_log_le_self 2 hn
  have h3 : ¬ (Nat.clog 2 (n + 1) ≤ Nat.log 2 n) := fun hc =>
    absurd ((Nat.le_pow_iff_clog_le (by norm_num)).2 hc) (by omega)
  omega

/-- C4: for every tree holding `n` items (necessarily `n >= 1`: on the empty
tree `rebalance()` does not produce a tree at all, it crashes, see C8), the
tree produced by `rebalance()` has `height()` at most `ceil(log2 (n+1)) - 1`
(`Nat.clog 2 (n+1) - 1`), the minimum possible height for `n` items: the
reconstruction loop places the `n` popped values into a complete binary tree
in level order, whose height is `floor(log2 n) = ceil(log2 (n+1)) - 1`. -/
theorem rebalance_height_le (t t2 : BTree) (h : rebalance t = some t2) :
    heightT t2 ≤ Nat.clog 2 ((inorderVals t).length + 1) - 1 := by
  cases t with
  | nil => simp [rebalance] at h
  | node d l r =>
    have hnpos : 1 ≤ (inorderVals (BTree.node d l r)).length := by
      simp [inorderVals]
      omega
    simp only [rebalance, Option.some.injEq] at h
    subst h
    refine le_trans (heightT_heapTree_le_log _) ?_
    simp only [List.length_cons, popChildren_length, List.length_insertionSort]
    have he : (inorderVals (BTree.node d l r)).length - 1 + 1
        = (inorderVals (BTree.node d l r)).length := by omega
    rw [he]
    exact log_le_clog_sub_one _ (by omega)

/-- C4 witness: the theorem applied to the concrete reachable tree built by
`add(1); add(2)` (root `1` with right child `2`, two items, bound
`ceil(log2 3) - 1 = 1`). -/
theorem rebalance_height_le_witness :
    rebalance (BTree.node 1 .nil (BTree.node 2 .nil .nil))
        = some (BTree.node 1 (BTree.node 2 .nil .nil) .nil)
      ∧ heightT (BTree.node 1 (BTree.node 2 .nil .nil) .nil)
        ≤ Nat.clog 2
            ((inorderVals (BTree.node 1 .nil (BTree.node 2 .nil .nil))).length + 1) - 1 :=
  ⟨by decide, rebalance_height_le _ _ (by decide)⟩

/-- C1 (status `code_bug`): evaluation of `rebalance()` on the reachable
two-item tree built by `add(1); add(2)`.  The multiset of items {1, 2} is
preserved, but the inorder sequence changes from `[1, 2]` to `[2, 1]`: the
child-creation loop always pops the middle of the *whole* remaining sorted
list instead of restricting the left child to the sub-range below its
parent, so after root `1` is popped the remaining list is `[2]` and value
`2` becomes the **left** child of root `1`.  This contradicts the claim
that the inorder sequence is unchanged by `rebalance()`. -/
theorem rebalance_changes_inorder_pair :
    inorderVals (run [Op.add 1, Op.add 2]).root = [1, 2]
      ∧ rebalance (run [Op.add 1, Op.add 2]).root
          = some (BTree.node 1 (BTree.node 2 .nil .nil) .nil)
      ∧ inorderVals (BTree.node 1 (BTree.node 2 .nil .nil) .nil) = [2, 1] := by
  decide

/-- C2 (status `code_bug`): the reachable state produced by
`add(1); rebalance()` has `_size = 0` (the reconstruction calls `clear()`,
which zeroes `_size`, and never restores it) while a full inorder traversal
yields one item, contradicting the claimed size invariant. -/
theorem rebalance_zeroes_size_counter :
    (run [Op.add 1, Op.rebalance]).size = 0
      ∧ (inorderVals (run [Op.add 1, Op.rebalance]).root).length = 1 := by
  decide

/-- C3 (status `code_bug`): the state reached by `add(1); add(2);
rebalance()` has root `1` whose **left** child stores `2 >= 1`, violating
the claimed BST order invariant (left-subtree values strictly less than the
node's value). -/
theorem rebalance_breaks_bst_invariant :
    (run [Op.add 1, Op.add 2, Op.rebalance]).root
        = BTree.node 1 (BTree.node 2 .nil .nil) .nil
      ∧ isBSTB (run [Op.add 1, Op.add 2, Op.rebalance]).root = false := by
  decide

/-- C8 counterexample: on the empty tree `rebalance()` does not complete:
`_subtree_inorder` defaults `position` to `self.root`, which is `None`, and
`position.left` raises `AttributeError`; the crash is modelled by `none`.
This refutes the claim that `rebalance()` completes for every tree,
including the empty tree. -/
theorem rebalance_empty_tree_crashes : rebalance BTree.nil = none := rfl

/-- C8 (amended): `rebalance()` completes (and rebuilds the tree in place)
for every **nonempty** tree. -/
theorem rebalance_total_on_nonempty (t : BTree) (h : t ≠ BTree.nil) :
    (rebalance t).isSome = true := by
  cases t with
  | nil => exact absurd rfl h
  | node d l r => rfl

/-- C8 witness: the amended theorem applied to the one-node tree. -/
theorem rebalance_total_on_nonempty_witness :
    BTree.node 1 .nil .nil ≠ BTree.nil
      ∧ (rebalance (BTree.node 1 .nil .nil)).isSome = true :=
  ⟨by decide, rebalance_total_on_nonempty _ (by decide)⟩

/-- C9: on the reachable tree built by `add(5); add(3); add(8)`,
`replace(3, 9)` succeeds and returns the old value `3`, overwriting the
node in place, but `contains(9)` on the resulting tree is false: the
comparison-guided descent for `9` goes right at root `5` and right again at
`8`, never visiting the left node that now stores `9`. -/
theorem replace_hides_new_item :
    (run [Op.add 5, Op.add 3, Op.add 8]).root
        = BTree.node 5 (BTree.node 3 .nil .nil) (BTree.node 8 .nil .nil)
      ∧ replaceGo (BTree.node 5 (BTree.node 3 .nil .nil) (BTree.node 8 .nil .nil)) 3 9
          = (some 3, BTree.node 5 (BTree.node 9 .nil .nil) (BTree.node 8 .nil .nil))
      ∧ containsB (BTree.node 5 (BTree.node 9 .nil .nil) (BTree.node 8 .nil .nil)) 9
          = false := by
  decide

/-- C10: `height()` on the empty tree returns `0` and does not fail:
`num_children(None)` returns Python `False`, which compares equal to `0`
(modelled as the value `0`), hence `is_leaf(None)` holds and the recursive
helper returns `0` at the absent root. -/
theorem height_empty_tree_is_zero :
    num_children BTree.nil = 0 ∧ is_leaf BTree.nil = true
      ∧ heightS { root := BTree.nil, size := 0 } = 0 := by
  decide

/-- C5: in every state satisfying the size invariant (`_size` equals the
inorder item count, which holds in all states not corrupted by the
`rebalance` size bug of C2) and the BST order invariant, `remove(item)`
raises the `KeyError("Item not in tree.")` exactly when `item` is absent —
and raising happens before any mutation, so the functional state is simply
kept by the caller (see `step`) — while when `item` is present `remove`
returns the removed item's value (`item` itself) and decrements `_size` by
one. -/
theorem remove_error_iff_absent (s : LinkedBST) (item : Int)
    (hsz : s.size = ((inorderVals s.root).length : Int))
    (hb : isBSTB s.root = true) :
    ((removeS s item = .error "Item not in tree.") ↔ item ∉ inorderVals s.root)
      ∧ (item ∈ inorderVals s.root →
          ∃ s2, removeS s item = .ok (some item, s2) ∧ s2.size = s.size - 1) := by
  obtain ⟨rt, sz⟩ := s
  simp only at hsz hb
  have hmem := containsB_iff_mem rt item hb
  constructor
  · constructor
    · intro he hm
      have hc : containsB rt item = true := hmem.2 hm
      by_cases h0 : sz = 0
      · simp [removeS, hc, h0] at he
      · rcases hsplit : removeGo rt item with ⟨f, r2⟩
        have hf : f = some item := by
          have h2 := removeGo_fst_eq_find rt item
          rw [hsplit] at h2
          rcases find_eq_none_or rt item with hno | hso
          · rw [containsB, hno] at hc
            simp at hc
          · rw [hso] at h2
            exact h2
        subst hf
        simp [removeS, hc, h0, hsplit] at he
    · intro hnm
      have hc : containsB rt item = false := by
        cases hcc : containsB rt item
        · rfl
        · exact absurd (hmem.1 hcc) hnm
      simp [removeS, hc]
  · intro hm
    have hc : containsB rt item = true := hmem.2 hm
    have h0 : sz ≠ 0 := by
      intro h
      rw [h] at hsz
      have hlen : (inorderVals rt).length = 0 := by exact_mod_cast hsz.symm
      rw [List.length_eq_zero.1 hlen] at hm
      simp at hm
    rcases hsplit : removeGo rt item with ⟨f, r2⟩
    have hf : f = some item := by
      have h2 := removeGo_fst_eq_find rt item
      rw [hsplit] at h2
      rcases find_eq_none_or rt item with hno | hso
      · rw [containsB, hno] at hc
        simp at hc
      · rw [hso] at h2
        exact h2
    subst hf
    refine ⟨{ root := if sz - 1 = 0 then .nil else r2, size := sz - 1 }, ?_, rfl⟩
    simp [removeS, hc, h0, hsplit]

/-- C5 witness: the theorem applied to the one-item state
`{root: Node(1), size: 1}` with `item = 1`, all hypotheses discharged by
evaluation. -/
theorem remove_error_iff_absent_witness :
    (({ root := BTree.node 1 .nil .nil, size := 1 } : LinkedBST).size
        = ((inorderVals (BTree.node 1 .nil .nil)).length : Int))
      ∧ ((removeS { root := BTree.node 1 .nil .nil, size := 1 } 1
            = .error "Item not in tree.")
          ↔ (1 : Int) ∉ inorderVals (BTree.node 1 .nil .nil)) :=
  ⟨by decide,
    (remove_error_iff_absent { root := BTree.node 1 .nil .nil, size := 1 } 1
      (by decide) (by decide)).1⟩

/-- C6 counterexample: the claim quantifies over **every** tree, but on the
reachable one-item tree built by `add(5)`, the sequence `add(5); remove(5)`
leaves one copy of `5` behind, so `contains(5)` is `true`, not `false` as
claimed. -/
theorem add_remove_keeps_preexisting_duplicate :
    containsB (run [Op.add 5, Op.add 5, Op.remove 5]).root 5 = true := by
  decide

/-- C6 (amended with the hypothesis that `x` is not already stored): on any
state satisfying the size invariant with `contains(x)` false, `add(x);
add(x)` increases `size` by exactly 2; both copies are then retrieved by
repeated removal (the first `remove(x)` succeeds returning `x` and yields
exactly the state after a single `add(x)`, the second succeeds again
returning `x` and restores the original state); in particular after
`add(x); remove(x)` the state is the original one, where `contains(x)` is
false. -/
theorem add_add_remove_remove_roundtrip (s : LinkedBST) (x : Int)
    (hsz : s.size = ((inorderVals s.root).length : Int))
    (hx : containsB s.root x = false) :
    (addS (addS s x) x).size = s.size + 2
      ∧ removeS (addS (addS s x) x) x = .ok (some x, addS s x)
      ∧ removeS (addS s x) x = .ok (some x, s)
      ∧ containsB s.root x = false := by
  obtain ⟨rt, sz⟩ := s
  simp only at hsz hx ⊢
  have hnn : (0 : Int) ≤ sz := hsz ▸ Int.natCast_nonneg _
  have hfind : find rt x = none := by
    cases hf : find rt x with
    | none => rfl
    | some v =>
      rw [containsB, hf] at hx
      simp at hx
  have ha1 : addS { root := rt, size := sz } x
      = { root := addGo rt x, size := sz + 1 } :=
    addS_eq_addGo _ _ hsz
  have ha2 : addS (addS { root := rt, size := sz } x) x
      = { root := addGo (addGo rt x) x, size := sz + 2 } := by
    rw [ha1]
    have hne : sz + 1 ≠ 0 := by omega
    simp only [addS, hne, if_neg hne]
    have : sz + 1 + 1 = sz + 2 := by ring
    rw [this]
    simp
  refine ⟨by rw [ha2], ?_, ?_, hx⟩
  · rw [ha2]
    have hc2 : containsB (addGo (addGo rt x) x) x = true := containsB_addGo_self _ _
    have hne : sz + 2 ≠ 0 := by omega
    have hrg := removeGo_addGo_addGo rt x hfind
    have harith : sz + 2 - 1 = sz + 1 := by ring
    have hne1 : sz + 1 ≠ 0 := by omega
    rw [ha1]
    simp [removeS, hc2, hne, hrg, harith, hne1]
  · rw [ha1]
    have hc1 : containsB (addGo rt x) x = true := containsB_addGo_self _ _
    have hne1 : sz + 1 ≠ 0 := by omega
    have hrg := removeGo_addGo rt x hfind
    have harith : sz + 1 - 1 = sz := by ring
    by_cases h0 : sz = 0
    · have hlen : (inorderVals rt).length = 0 := by
        rw [h0] at hsz
        exact_mod_cast hsz.symm
      have hroot : rt = .nil :=
        (inorderVals_eq_nil_iff rt).1 (List.length_eq_zero.1 hlen)
      subst hroot
      simp [removeS, hc1, hne1, hrg, harith, h0]
    · simp [removeS, hc1, hne1, hrg, harith, h0]

/-- C6 witness: the amended theorem applied to the empty initial state and
`x = 5`. -/
theorem add_add_remove_remove_roundtrip_witness :
    (addS (addS { root := BTree.nil, size := 0 } 5) 5).size
        = ({ root := BTree.nil, size := 0 } : LinkedBST).size + 2
      ∧ removeS (addS (addS { root := BTree.nil, size := 0 } 5) 5) 5
          = .ok (some 5, addS { root := BTree.nil, size := 0 } 5)
      ∧ removeS (addS { root := BTree.nil, size := 0 } 5) 5
          = .ok (some 5, { root := BTree.nil, size := 0 })
      ∧ containsB ({ root := BTree.nil, size := 0 } : LinkedBST).root 5 = false :=
  add_add_remove_remove_roundtrip { root := BTree.nil, size := 0 } 5
    (by decide) (by decide)

/-- C7: for every tree and bounds with `low <= high`, `range_find(low,
high)` is exactly the inorder scan filtered by `low <= x <= high` (the
Python test `x in range(low, high + 1)` is `low <= x < high + 1`, i.e.
`low <= x <= high` for integers): it contains precisely the stored items
within the bounds, in inorder order, and whenever the tree satisfies the
BST order invariant (so that the inorder sequence is ascending) the result
is ascending. -/
theorem range_find_spec (t : BTree) (low high : Int) (_hlh : low ≤ high) :
    range_find t low high
        = (inorderVals t).filter (fun x => decide (low ≤ x) && decide (x ≤ high))
      ∧ (∀ x : Int, x ∈ range_find t low high
          ↔ (x ∈ inorderVals t ∧ low ≤ x ∧ x ≤ high))
      ∧ (isBSTB t = true → (range_find t low high).Sorted (· ≤ ·)) := by
  have hfe : range_find t low high
      = (inorderVals t).filter (fun x => decide (low ≤ x) && decide (x ≤ high)) := by
    rw [range_find]
    have hfun : (fun x : Int => decide (low ≤ x) && decide (x < high + 1))
        = (fun x : Int => decide (low ≤ x) && decide (x ≤ high)) := by
      funext x
      congr 1
      exact decide_eq_decide.2 Int.lt_add_one_iff
    rw [hfun]
  refine ⟨hfe, ?_, ?_⟩
  · intro x
    rw [hfe, List.mem_filter]
    simp
  · intro hb
    rw [hfe]
    exact List.Pairwise.filter _ (sorted_inorder_of_isBSTB t hb)

/-- C7 witness: the theorem applied to the reachable five-item tree built
by `add(5); add(3); add(8); add(1); add(4)` with bounds `2, 6` (the spec
scenario, whose result is `[3, 4, 5]`). -/
theorem range_find_spec_witness :
    (2 : Int) ≤ 6
      ∧ range_find (run [Op.add 5, Op.add 3, Op.add 8, Op.add 1, Op.add 4]).root 2 6
          = (inorderVals (run [Op.add 5, Op.add 3, Op.add 8, Op.add 1, Op.add 4]).root).filter
              (fun x => decide ((2 : Int) ≤ x) && decide (x ≤ 6)) :=
  ⟨by decide, (range_find_spec _ 2 6 (by decide)).1⟩
